import Mathlib

/-!
# Verification of the quotation item parser

A shallow embedding of `src/scripts/parse_quotation_items.py` and proofs of
the specification's claims about it.

Text is modelled as `List Nat` of Unicode code points (Python strings are
sequences of code points).  The regular expressions of the source are small
and concrete, so each is embedded as the explicit scanning function its
backtracking semantics denotes; the embedding is ASCII-scoped where Python's
`re` classes (`\d`, `[a-z]` with IGNORECASE, `\s`) would additionally match
exotic Unicode — the documents in scope and every claim use ASCII labels.

Fallible code (Python's `int('')` raising `ValueError`) is modelled with
`Option`: `none` is a raised exception propagating out of the call.
-/

namespace PQI

/-- Code points of a string literal, the model of a Python `str`. -/
def S (s : String) : List Nat := s.toList.map Char.toNat

/-- `'₱'` (U+20B1), the currency marker of the documents. -/
def peso : Nat := 8369

/-- `'–'` (U+2013), the en dash used as a pricing separator. -/
def dash : Nat := 8211

/-- `'='`. -/
def eqCh : Nat := 61

/-- Python `\s` / `str.strip` whitespace, ASCII scope. -/
def isWS (c : Nat) : Bool := c = 32 || c = 9 || c = 10 || c = 13 || c = 11 || c = 12

/-- Python `str.lower`, ASCII scope: `A`–`Z` to `a`–`z`. -/
def toLowerN (c : Nat) : Nat := if 65 ≤ c && c ≤ 90 then c + 32 else c

/-- `\d`, ASCII scope: `0`–`9`. -/
def isDigitN (c : Nat) : Bool := 48 ≤ c && c ≤ 57

/-- `[a-z]` without IGNORECASE. -/
def isLowerAlphaN (c : Nat) : Bool := 97 ≤ c && c ≤ 122

/-- `[a-z]` under IGNORECASE: the lowercased character is `a`–`z`. -/
def isAlphaCIN (c : Nat) : Bool := isLowerAlphaN (toLowerN c)

/-- `[ivxlcdm]` without IGNORECASE (code points of i v x l c d m). -/
def isRomanLowerN (c : Nat) : Bool :=
  c = 105 || c = 118 || c = 120 || c = 108 || c = 99 || c = 100 || c = 109

/-- `[ivxlcdm]` under IGNORECASE. -/
def isRomanCIN (c : Nat) : Bool := isRomanLowerN (toLowerN c)

/-- `[\d,]`. -/
def isDigitCommaN (c : Nat) : Bool := isDigitN c || c = 44

/-- `[\.\)]`. -/
def isDotParenN (c : Nat) : Bool := c = 46 || c = 41

/-- Python `str.strip()`. -/
def strip (s : List Nat) : List Nat :=
  ((s.dropWhile isWS).reverse.dropWhile isWS).reverse

/-- Python `str.lower()`. -/
def lowerStr (s : List Nat) : List Nat := s.map toLowerN

/-- `needle in haystack` (Python substring test). -/
def containsSub (n : List Nat) : List Nat → Bool
  | [] => n.isEmpty
  | c :: t => n.isPrefixOf (c :: t) || containsSub n t

/-- Python `str.find`: index of the first occurrence, `none` when absent. -/
def findSub (n : List Nat) : List Nat → Option Nat
  | [] => if n.isEmpty then some 0 else none
  | c :: t =>
    if n.isPrefixOf (c :: t) then some 0
    else (findSub n t).map (· + 1)

/-- Python `str.split('\n')`. -/
def splitNL : List Nat → List (List Nat)
  | [] => [[]]
  | c :: t =>
    let r := splitNL t
    if c = 10 then [] :: r
    else match r with
      | [] => [[c]]
      | h :: rs => (c :: h) :: rs

/-- `int(run.replace(',', ''))` for a run over `[\d,]`: strip commas, read the
decimal value; an all-comma run is Python's `int('')`, which raises
`ValueError` (`none`). -/
def intOfRun (run : List Nat) : Option Nat :=
  let ds := run.filter fun c => !(c = 44)
  if ds.isEmpty then none
  else some (ds.foldl (fun a c => a * 10 + (c - 48)) 0)

/-! ## Line Classifier (`detect_item_line`, `extract_number_and_text`)

Each of the six anchored numbering grammars is embedded as a matcher
returning the captured label and the remainder after `\s*(.*)`.  A greedy
run `X+` followed by `[\.\)]` or `\)` matches exactly when the maximal run
is nonempty and the next character closes it (no run character is a closer,
so backtracking in the source regex can never succeed with a shorter run). -/

/-- `^(X+)[\.\)]\s*(.*)` for a character class `p`. -/
def matchRunDot (p : Nat → Bool) (l : List Nat) : Option (List Nat × List Nat) :=
  let run := l.takeWhile p
  if run.isEmpty then none
  else match l.drop run.length with
    | c :: rest => if isDotParenN c then some (run, rest.dropWhile isWS) else none
    | [] => none

/-- `^\((X+)\)\s*(.*)` for a character class `p`. -/
def matchParenRun (p : Nat → Bool) (l : List Nat) : Option (List Nat × List Nat) :=
  match l with
  | 40 :: r =>
    let run := r.takeWhile p
    if run.isEmpty then none
    else match r.drop run.length with
      | 41 :: rest => some (run, rest.dropWhile isWS)
      | _ => none
  | _ => none

/-- `^(X)[\.\)]\s*(.*)` for a single character of class `p`. -/
def matchSingleDot (p : Nat → Bool) (l : List Nat) : Option (List Nat × List Nat) :=
  match l with
  | a :: b :: rest =>
    if p a && isDotParenN b then some ([a], rest.dropWhile isWS) else none
  | _ => none

/-- `^\((X)\)\s*(.*)` for a single character of class `p`. -/
def matchParenSingle (p : Nat → Bool) (l : List Nat) : Option (List Nat × List Nat) :=
  match l with
  | 40 :: a :: 41 :: rest => if p a then some ([a], rest.dropWhile isWS) else none
  | _ => none

/-- `detect_item_line`: the line (stripped) starts with one of the six
numbering grammars.  The source tests the same six patterns (without the
capture groups) in the same order. -/
def detect_item_line (line : List Nat) : Bool :=
  let l := strip line
  if l.isEmpty then false
  else
    (matchRunDot isDigitN l).isSome || (matchParenRun isDigitN l).isSome ||
    (matchSingleDot isAlphaCIN l).isSome || (matchParenSingle isAlphaCIN l).isSome ||
    (matchRunDot isRomanCIN l).isSome || (matchParenRun isRomanCIN l).isSome

/-- `extract_number_and_text`: first of the six grammars that matches wins;
`("", line)` when none does. -/
def extract_number_and_text (line : List Nat) : List Nat × List Nat :=
  let l := strip line
  match matchRunDot isDigitN l with
  | some r => r
  | none => match matchParenRun isDigitN l with
    | some r => r
    | none => match matchSingleDot isAlphaCIN l with
      | some r => r
      | none => match matchParenSingle isAlphaCIN l with
        | some r => r
        | none => match matchRunDot isRomanCIN l with
          | some r => r
          | none => match matchParenRun isRomanCIN l with
            | some r => r
            | none => ([], l)

/-! ## Hierarchy Resolver (`determine_hierarchy_level`) -/

/-- `re.match(r'^[a-z]$', n)`: exactly one lowercase letter. -/
def isSingleLowerAlpha : List Nat → Bool
  | [c] => isLowerAlphaN c
  | _ => false

/-- The classification chain of `determine_hierarchy_level` on the
lowercased, stripped label `n`: `^\d+$` → 1, multi-character
`^[ivxlcdm]+$` → 3, `^[a-z]$` → 2, else 0. -/
def classifyLabel (n : List Nat) : Nat :=
  if n.isEmpty then 0
  else if n.all isDigitN then 1
  else if decide (1 < n.length) && n.all isRomanLowerN then 3
  else if isSingleLowerAlpha n then 2
  else 0

/-- `determine_hierarchy_level`: `number_str.lower().strip()`, then the
classification chain. -/
def determine_hierarchy_level (number_str : List Nat) : Nat :=
  classifyLabel (strip (lowerStr number_str))

/-- Modelled from the claim's words (C4): 1 iff the label consists entirely
of digits, 3 iff it has two or more characters all drawn from
`{i,v,x,l,c,d,m}` case-insensitively, 2 iff it is exactly one alphabetic
character case-insensitively, 0 for the empty label or anything else. -/
def resolve_depth_spec (label : List Nat) : Nat :=
  if !label.isEmpty && label.all isDigitN then 1
  else if decide (2 ≤ label.length) && label.all isRomanCIN then 3
  else if decide (label.length = 1) && label.all isAlphaCIN then 2
  else 0

/-! ## Pricing Classifier (`parse_pricing_from_line`)

The source's `re.search` calls are embedded as left-to-right scans.  For
each regex the match at a given start position is deterministic (argued in
the doc comment of the corresponding scan), so `re.search`'s
leftmost-match-wins semantics is the first position where the scan's local
check succeeds. -/

/-- One money-bearing fragment as classified by `parse_pricing_from_line`:
the Python dict with keys `format`/`raw` always present and
`label`/`amount`/`unit_price`/`total` present per format. -/
structure PricingRec where
  format : Option (List Nat)
  raw : List Nat
  label : Option (List Nat) := none
  amount : Option Nat := none
  unit_price : Option Nat := none
  total : Option Nat := none
deriving DecidableEq

/-- The tail `\s*₱\s*([\d,]+)` anchored after a separator: skip whitespace,
require `₱`, skip whitespace, capture the maximal nonempty `[\d,]` run.
(`\s*` is greedy; shortening it would put the required literal on a
whitespace character, so no backtracking case exists.) -/
def tailAmount (s : List Nat) : Option (List Nat) :=
  match s.dropWhile isWS with
  | c :: r =>
    if c = peso then
      let run := (r.dropWhile isWS).takeWhile isDigitCommaN
      if run.isEmpty then none else some run
    else none
  | [] => none

/-- `re.search(r'[–=]\s*₱\s*([\d,]+)', text)`: the first `–`/`=` whose tail
matches, returning the captured amount run.  (A match of this regex starts
at a separator character, so scanning for the first matching separator is
exactly leftmost search.) -/
def searchSep : List Nat → Option (List Nat)
  | [] => none
  | c :: t =>
    if c = dash || c = eqCh then
      match tailAmount t with
      | some run => some run
      | none => searchSep t
    else searchSep t

/-- `re.search(r'₱\s*([\d,]+)', text)`: first `₱` followed (after optional
whitespace) by a nonempty `[\d,]` run. -/
def searchCurrencyInt : List Nat → Option (List Nat)
  | [] => none
  | c :: t =>
    if c = peso then
      let run := (t.dropWhile isWS).takeWhile isDigitCommaN
      if run.isEmpty then searchCurrencyInt t else some run
    else searchCurrencyInt t

/-- The unit pattern anchored at a `₱`:
`₱\s*([\d,]+)\s*/unit\s*[–=]\s*₱\s*([\d,]+)` minus its leading `₱`. -/
def unitAt (t : List Nat) : Option (List Nat × List Nat) :=
  let r1 := t.dropWhile isWS
  let run1 := r1.takeWhile isDigitCommaN
  if run1.isEmpty then none
  else
    let r2 := (r1.drop run1.length).dropWhile isWS
    if (S "/unit").isPrefixOf r2 then
      match (r2.drop 5).dropWhile isWS with
      | c :: r3 =>
        if c = dash || c = eqCh then
          match tailAmount r3 with
          | some run2 => some (run1, run2)
          | none => none
        else none
      | [] => none
    else none

/-- `re.search(r'₱\s*([\d,]+)\s*/unit\s*[–=]\s*₱\s*([\d,]+)', text)`: a
match starts at a `₱`, so leftmost search scans for the first `₱` where
`unitAt` succeeds. -/
def searchUnit : List Nat → Option (List Nat × List Nat)
  | [] => none
  | c :: t =>
    if c = peso then
      match unitAt t with
      | some r => some r
      | none => searchUnit t
    else searchUnit t

/-- `re.search(r'(Plus:|Additional:)', text, re.IGNORECASE)` as a Boolean:
the lowered text contains `plus:` or `additional:`. -/
def addTrigger (text : List Nat) : Bool :=
  containsSub (S "plus:") (lowerStr text) || containsSub (S "additional:") (lowerStr text)

/-- `re.search(r'(Plus:|Additional:)?\s*([^–=₱]*?)\s*[–=]\s*₱\s*([\d,]+)', text)`,
reduced to what the source reads from the match: the span from the match
start to the separator (group 1 + surrounding `\s*` + group 2) and the
captured amount run (group 3).

At a start position `s` the optional marker, `\s*` and the lazy
`[^–=₱]*?` together absorb exactly the characters outside `{–,=,₱}`, so a
match from `s` uses the first `–`/`=`/`₱` at or after `s`: it must be a
`–`/`=` whose `tailAmount` succeeds, else no match starts at or before that
character and the search resumes just after it.  `acc` accumulates (in
reverse) the span since the current candidate start. -/
def searchAdditive (acc : List Nat) : List Nat → Option (List Nat × List Nat)
  | [] => none
  | c :: t =>
    if c = dash || c = eqCh then
      match tailAmount t with
      | some run => some (acc.reverse, run)
      | none => searchAdditive [] t
    else if c = peso then searchAdditive [] t
    else searchAdditive (c :: acc) t

/-- Group 2 of the additive regex, stripped, given the span before the
separator: the literal case-sensitive marker alternation `(Plus:|Additional:)?`
can only match at the very start of the span. -/
def additiveLabel (region : List Nat) : List Nat :=
  if (S "Plus:").isPrefixOf region then strip (region.drop 5)
  else if (S "Additional:").isPrefixOf region then strip (region.drop 11)
  else strip region

/-- `parse_pricing_from_line`.  The source also computes a `text_clean`
variable (line 127) that no later statement reads; it is omitted.
`none` models a raised `ValueError` (from `int('')` on an all-comma
amount capture). -/
def parse_pricing_from_line (text : List Nat) : Option PricingRec :=
  if addTrigger text then
    match searchAdditive [] text with
    | none => some { format := some (S "additive"), raw := text }
    | some (region, run) =>
      match intOfRun run with
      | none => none
      | some amt =>
        let lbl := additiveLabel region
        some { format := some (S "additive"), raw := text,
               label := some (if lbl.isEmpty then S "Installation" else lbl),
               amount := some amt }
  else
    match searchUnit text with
    | some (run1, run2) =>
      match intOfRun run1 with
      | none => none
      | some up =>
        match intOfRun run2 with
        | none => none
        | some tot =>
          some { format := some (S "unit-based"), raw := text,
                 unit_price := some up, total := some tot }
    | none =>
      match searchSep text with
      | some run =>
        match intOfRun run with
        | none => none
        | some amt =>
          some { format := some (S "lump-sum"), raw := text, amount := some amt }
      | none =>
        -- the source re-tests the same regex as the lump-sum branch
        if (searchSep text).isSome then
          match searchCurrencyInt text with
          | some run =>
            match intOfRun run with
            | none => none
            | some amt =>
              some { format := some (S "calculation"), raw := text, amount := some amt }
          | none => some { format := some (S "calculation"), raw := text }
        else some { format := none, raw := text }

/-! ## Data model: the item tree

Python items are dicts;
`children` is a list-valued key that `clean_items` may delete, modelled by
the flag `hasChildren` (the key is present) next to the list.  `pricing` is
either `None`, a record from `parse_pricing_from_line`, or a dict grown with
`additional` / `calculations` keys — `IPricing` carries all three parts. -/

/-- An item's `pricing` dict: `parsed` holds the `format`/`raw`/… keys written
by `parse_pricing_from_line` (absent when the dict was created empty), and
the optional `additional` / `calculations` keys added for continuation
lines. -/
structure IPricing where
  parsed : Option PricingRec
  additional : Option (List PricingRec)
  calculations : Option (List (List Nat))
deriving DecidableEq

mutual

inductive Item where
| mk (number : List Nat) (description : List Nat) (level : Nat)
     (pricing : Option IPricing) (total_price : Option (List Nat))
     (hasChildren : Bool) (children : Items) : Item

inductive Items where
| nil : Items
| cons (head : Item) (tail : Items) : Items

end

def Item.number : Item → List Nat
  | .mk n _ _ _ _ _ _ => n

def Item.description : Item → List Nat
  | .mk _ d _ _ _ _ _ => d

def Item.level : Item → Nat
  | .mk _ _ lv _ _ _ _ => lv

def Item.pricing : Item → Option IPricing
  | .mk _ _ _ p _ _ _ => p

def Item.total_price : Item → Option (List Nat)
  | .mk _ _ _ _ tp _ _ => tp

def Item.hasChildren : Item → Bool
  | .mk _ _ _ _ _ hc _ => hc

def Item.children : Item → Items
  | .mk _ _ _ _ _ _ ch => ch

def Items.isNil : Items → Bool
  | .nil => true
  | .cons _ _ => false

def Items.length : Items → Nat
  | .nil => 0
  | .cons _ t => 1 + t.length

/-- `list.append(x)`. -/
def Items.snoc : Items → Item → Items
  | .nil, it => .cons it .nil
  | .cons h t, it => .cons h (t.snoc it)

/-- Mutation of `lst[-1]` in place (identity on an empty list — the callers
establish nonemptiness, mirroring Python's `[-1]` indexing). -/
def Items.modifyLast (f : Item → Item) : Items → Items
  | .nil => .nil
  | .cons h .nil => .cons (f h) .nil
  | .cons h t => .cons h (t.modifyLast f)

/-- `lst[-1]["children"]` (nil for an empty list; callers guard). -/
def Items.lastChildren : Items → Items
  | .nil => .nil
  | .cons h .nil => h.children
  | .cons _ t => t.lastChildren

/-- `item["children"].append(c)`. -/
def Item.appendChild (it : Item) (c : Item) : Item :=
  match it with
  | .mk n d lv p tp hc ch => .mk n d lv p tp hc (ch.snoc c)

/-- `items[-1]["children"].append(it)`: the new item becomes the last child
of the last top-level item. -/
def Items.appendLastChild (l : Items) (it : Item) : Items :=
  l.modifyLast (fun p => p.appendChild it)

/-- `items[-1]["children"][-1]["children"].append(it)`: the new item becomes
the last child of the last top-level item's last child. -/
def Items.appendLastGrand (l : Items) (it : Item) : Items :=
  l.modifyLast (fun p =>
    match p with
    | .mk n d lv pr tp hc ch => .mk n d lv pr tp hc (ch.modifyLast (fun q => q.appendChild it)))

/-! ## Section Extractor -/

/-- `re.search(r'Job to be done\s*:', text, re.IGNORECASE)`, returning the
text after the match (`text[job_match.end():]`): at each position try the
case-insensitive literal, then greedy `\s*`, then the required `:`. -/
def findJobSection : List Nat → Option (List Nat)
  | [] => none
  | c :: t =>
    if (S "job to be done").isPrefixOf (lowerStr (c :: t)) then
      match ((c :: t).drop 14).dropWhile isWS with
      | 58 :: r => some r
      | _ => findJobSection t
    else findJobSection t

def end_markers : List (List Nat) :=
  [S "Terms of Payment", S "Warranty", S "Exception", S "Thank you", S "Conforme"]

/-- `end_pos`: the minimum over the end markers of
`job_section.lower().find(marker.lower())` (ignoring absent markers),
starting from `len(job_section)`. -/
def endPos (sec : List Nat) : Nat :=
  end_markers.foldl
    (fun acc m =>
      match findSub (lowerStr m) (lowerStr sec) with
      | some p => min acc p
      | none => acc)
    sec.length

/-! ## Tree Assembler (`parse_item_section`)

The loop's `current_item` is a reference to the most recently created item;
continuation lines mutate it after it has been appended into the tree.  The
embedding holds the current item outside the tree, tagged with the placement
the source performed (`top` / `child` / `grand` — always a "last position" —
or `drop` when the source's depth-3 branch appended it nowhere), and flushes
it into that position before the tree is next read (next item line, and end
of input).  The source's `item_stack` variable is written but never read
except for an `is not None` test on list objects, which cannot fail; it is
omitted. -/

inductive Tag where
  | top
  | child
  | grand
  | drop
deriving DecidableEq

structure PState where
  items : Items
  cur : Option (Tag × Item)
  prev : Nat

/-- Place the open item into the tree position its tag records. -/
def flush (items : Items) : Option (Tag × Item) → Items
  | none => items
  | some (.top, it) => items.snoc it
  | some (.child, it) => items.modifyLast (fun p => p.appendChild it)
  | some (.grand, it) =>
    items.modifyLast (fun p =>
      match p with
      | .mk n d lv pr tp hc ch => .mk n d lv pr tp hc (ch.modifyLast (fun q => q.appendChild it)))
  | some (.drop, _) => items

def flushState (st : PState) : Items := flush st.items st.cur

/-- `current_item["total_price"] = line`. -/
def setTotalPrice (l : List Nat) (it : Item) : Item :=
  match it with
  | .mk n d lv p _ hc ch => .mk n d lv p (some l) hc ch

def emptyIP : IPricing := ⟨none, none, none⟩

/-- Ensure the pricing dict exists and append to its `additional` list. -/
def addAdditional (r : PricingRec) (it : Item) : Item :=
  match it with
  | .mk n d lv p tp hc ch =>
    let ip := p.getD emptyIP
    .mk n d lv (some { ip with additional := some (ip.additional.getD [] ++ [r]) }) tp hc ch

/-- Ensure the pricing dict exists and append to its `calculations` list. -/
def addCalculation (l : List Nat) (it : Item) : Item :=
  match it with
  | .mk n d lv p tp hc ch =>
    let ip := p.getD emptyIP
    .mk n d lv (some { ip with calculations := some (ip.calculations.getD [] ++ [l]) }) tp hc ch

/-- `current_item["description"] += " " + line`. -/
def appendDesc (l : List Nat) (it : Item) : Item :=
  match it with
  | .mk n d lv p tp hc ch => .mk n (d ++ 32 :: l) lv p tp hc ch

/-- Apply a mutation to `current_item`. -/
def applyCur (st : PState) (f : Item → Item) : PState :=
  match st.cur with
  | none => st
  | some (tg, it) => { st with cur := some (tg, f it) }

/-- `[\d,/()ft\s×-]` under IGNORECASE (also `F` and `T`). -/
def isSubClassN (c : Nat) : Bool :=
  isDigitN c || c = 44 || c = 47 || c = 40 || c = 41 || c = 102 || c = 116 ||
  c = 70 || c = 84 || isWS c || c = 215 || c = 45

/-- One match of `\s*[–=]\s*₱[\d,/()ft\s×-]*` anchored at the start of `s`:
the remainder after the match, or `none`.  Every `\s*`/class run is greedy;
shortening one would place a required literal on a character it cannot
match, so the anchored match is deterministic. -/
def subPricingAt (s : List Nat) : Option (List Nat) :=
  match s.dropWhile isWS with
  | c :: r2 =>
    if c = dash || c = eqCh then
      match r2.dropWhile isWS with
      | c2 :: r3 => if c2 = peso then some (r3.dropWhile isSubClassN) else none
      | [] => none
    else none
  | [] => none

/-- The scan of `re.sub(r'\s*[–=]\s*₱[\d,/()ft\s×-]*', '', text)`: delete
each leftmost non-overlapping match, resuming after it.  Fuel is the length
of the text; a match consumes at least two characters, so the fuel never
runs out. -/
def subPricingGo : Nat → List Nat → List Nat
  | 0, s => s
  | _ + 1, [] => []
  | fuel + 1, c :: t =>
    match subPricingAt (c :: t) with
    | some rest => subPricingGo fuel rest
    | none => c :: subPricingGo fuel t

def stripPricingSub (text : List Nat) : List Nat := subPricingGo text.length text

/-- The inline-pricing step of an item line: when the remainder text holds
a `–`/`=`/`₱`, classify it (a raised `ValueError` is `none`) and strip the
recognized pricing substring from the description. -/
def itemPricingDesc (text : List Nat) : Option (Option IPricing × List Nat) :=
  if containsSub [dash] text || containsSub [eqCh] text || containsSub [peso] text then
    match parse_pricing_from_line text with
    | none => none
    | some r => some (some ⟨some r, none, none⟩, strip (stripPricingSub text))
  else some (none, text)

/-- The placement policy of the source's hierarchy-management block, on a
freshly created item: depth 1 → top level; depth 2 with `prev_level ≥ 1` →
last top item's children (`items[-1]` would raise IndexError on an empty
list: `none`, unreachable); depth 3 with `prev_level ≥ 2` → last child's
children when the guard `items and items[-1]["children"]` holds, else the
item is appended nowhere (`drop`); any other combination → top level. -/
def placeItem (st : PState) (newIt : Item) (level : Nat) : Option PState :=
  if level = 1 then some ⟨flushState st, some (.top, newIt), 1⟩
  else if level = 2 && decide (1 ≤ st.prev) then
    if (flushState st).isNil then none
    else some ⟨flushState st, some (.child, newIt), 2⟩
  else if level = 3 && decide (2 ≤ st.prev) then
    if !(flushState st).isNil && !(flushState st).lastChildren.isNil then
      some ⟨flushState st, some (.grand, newIt), 3⟩
    else some ⟨flushState st, some (.drop, newIt), 3⟩
  else some ⟨flushState st, some (.top, newIt), level⟩

/-- The fresh item dict built for an item-start line: number, cleaned text,
resolved level, inline pricing, no total price, `children: []`. -/
def newItem (line : List Nat) (pd : Option IPricing × List Nat) : Item :=
  .mk (extract_number_and_text line).1 pd.2
    (determine_hierarchy_level (extract_number_and_text line).1) pd.1 none true .nil

/-- An item-start line: extract label and text, resolve the depth, classify
inline pricing, create the item and place it. -/
def processItemLine (st : PState) (line : List Nat) : Option PState :=
  match itemPricingDesc (extract_number_and_text line).2 with
  | none => none
  | some pd =>
    placeItem st (newItem line pd)
      (determine_hierarchy_level (extract_number_and_text line).1)

/-- A non-item line while an item is open. -/
def processContinuation (st : PState) (line : List Nat) : Option PState :=
  if containsSub [peso] line then
    if containsSub (S "Plus:") line || containsSub (S "Additional:") line ||
        containsSub (S "Total Price") line then
      if containsSub (S "Total Price") line then some (applyCur st (setTotalPrice line))
      else
        match parse_pricing_from_line line with
        | none => none
        | some r => some (applyCur st (addAdditional r))
    else some (applyCur st (addCalculation line))
  else some (applyCur st (appendDesc line))

/-- One iteration of the assembly loop on a raw line.  `none` models an
uncaught exception (`ValueError` from `parse_pricing_from_line`). -/
def processLine (st : PState) (rawLine : List Nat) : Option PState :=
  if (strip rawLine).isEmpty then some st
  else if detect_item_line (strip rawLine) then processItemLine st (strip rawLine)
  else
    match st.cur with
    | none => some st
    | some _ => processContinuation st (strip rawLine)

def processLines : PState → List (List Nat) → Option PState
  | st, [] => some st
  | st, l :: rest =>
    match processLine st l with
    | none => none
    | some st' => processLines st' rest

mutual

/-- `clean_items`'s per-item work: nonempty children are cleaned
recursively, an empty `children` key is deleted. -/
def clean_item : Item → Item
  | .mk n d lv p tp _ ch =>
    match ch with
    | .nil => .mk n d lv p tp false .nil
    | .cons c cs => .mk n d lv p tp true (clean_items (.cons c cs))

def clean_items : Items → Items
  | .nil => .nil
  | .cons it rest => .cons (clean_item it) (clean_items rest)

end

/-- `parse_item_section`. -/
def parse_item_section (extracted_text : List Nat) : Option Items :=
  match findJobSection extracted_text with
  | none => some .nil
  | some sec =>
    match processLines ⟨.nil, none, 0⟩ (splitNL (strip (sec.take (endPos sec)))) with
    | none => none
    | some st => some (clean_items (flush st.items st.cur))

/-! ## Document Summarizer (`extract_quotation_items`) -/

/-- `get_max_depth(item_list, current_depth)` with the loop's `max_d`
accumulator made explicit (entered with `acc = current_depth`): an empty
list returns the accumulator, and each item whose `children` key is present
and nonempty contributes a recursive call at depth + 1. -/
def get_max_depth : Items → Nat → Nat → Nat
  | .nil, _, acc => acc
  | .cons (.mk _ _ _ _ _ hc ch) rest, d, acc =>
    if hc && !ch.isNil then
      get_max_depth rest d (max acc (get_max_depth ch (d + 1) (d + 1)))
    else get_max_depth rest d acc

/-- Python set insertion (membership only matters: the result is sorted). -/
def setAdd (x : List Nat) (l : List (List Nat)) : List (List Nat) :=
  if l.contains x then l else l ++ [x]

/-- `item.get("pricing") and item["pricing"].get("format")`. -/
def fmtOf (it : Item) : Option (List Nat) :=
  it.pricing.bind fun ip => ip.parsed.bind fun r => r.format

/-- Add an item's own non-null `format` (if any) to the set. -/
def addFmt (it : Item) (acc : List (List Nat)) : List (List Nat) :=
  match fmtOf it with
  | some f => setAdd f acc
  | none => acc

/-- `collect_patterns` with the closed-over set as an accumulator: record
the item's own format, walk a present nonempty `children` key, then the
rest of the sequence. -/
def collect_patterns : Items → List (List Nat) → List (List Nat)
  | .nil, acc => acc
  | .cons (.mk n d lv p tp hc ch) rest, acc =>
    collect_patterns rest
      (if hc && !ch.isNil then collect_patterns ch (addFmt (.mk n d lv p tp hc ch) acc)
       else addFmt (.mk n d lv p tp hc ch) acc)

/-- Python string `<=`: lexicographic on code points. -/
def lexLe : List Nat → List Nat → Bool
  | [], _ => true
  | _ :: _, [] => false
  | a :: as, b :: bs => if a < b then true else if b < a then false else lexLe as bs

def insertLe (x : List Nat) : List (List Nat) → List (List Nat)
  | [] => [x]
  | y :: ys => if lexLe x y then x :: y :: ys else y :: insertLe x ys

/-- Python `sorted`. -/
def sortLex : List (List Nat) → List (List Nat)
  | [] => []
  | x :: xs => insertLe x (sortLex xs)

def location_keywords : List (List Nat) :=
  [S "floor", S "room", S "dept", S "office", S "area", S "section"]

/-- The location-grouping scan over top-level descriptions. -/
def hasLocationGrouping : Items → Bool
  | .nil => false
  | .cons (.mk _ d _ _ _ _ _) rest =>
    (location_keywords.any fun kw => containsSub kw (lowerStr d)) || hasLocationGrouping rest

/-- The record `extract_quotation_items` returns. -/
structure ParseResult where
  filename : List Nat
  items : Items
  item_count : Nat
  hierarchy_depth : Nat
  has_location_grouping : Bool
  pricing_patterns : List (List Nat)

/-- `extract_quotation_items` on a document's `extracted_text`/`filename`
(the source reads both out of the input JSON object). -/
def extract_quotation_items (extracted_text filename : List Nat) : Option ParseResult :=
  match parse_item_section extracted_text with
  | none => none
  | some items =>
    some { filename := filename,
           items := items,
           item_count := items.length,
           hierarchy_depth := if items.isNil then 0 else get_max_depth items 1 1,
           has_location_grouping := hasLocationGrouping items,
           pricing_patterns := sortLex (collect_patterns items []) }

/-! ## Observations and specification-side definitions

Decidable observation functions over the tree, and definitions written from
the claims' words (each marked so) for refinement-style comparisons. -/

mutual

/-- Number of nodes of an item's subtree (the item included). -/
def itemNodes : Item → Nat
  | .mk _ _ _ _ _ _ ch => 1 + itemsNodes ch

/-- Total number of nodes in a tree. -/
def itemsNodes : Items → Nat
  | .nil => 0
  | .cons it rest => itemNodes it + itemsNodes rest

end

/-- Boolean "every item of this sequence satisfies `p`" (one layer). -/
def allItems (p : Item → Bool) : Items → Bool
  | .nil => true
  | .cons it rest => p it && allItems p rest

/-- A grandchild as the assembler may place one: level 3, no children. -/
def gchildOK (g : Item) : Bool := g.level == 3 && g.children.isNil

/-- A child as the assembler may place one: level 2, all grandchildren OK. -/
def childOK (c : Item) : Bool := c.level == 2 && allItems gchildOK c.children

/-- A top-level item: all its children are placed-children. -/
def topOK (t : Item) : Bool := allItems childOK t.children

/-- The three-layer shape invariant of claim C10. -/
def layersOK (l : Items) : Bool := allItems topOK l

/-- The shape the open item must have for the placement its tag records. -/
def curOK : Option (Tag × Item) → Bool
  | none => true
  | some (.top, it) => topOK it
  | some (.child, it) => childOK it
  | some (.grand, it) => gchildOK it
  | some (.drop, _) => true

/-- The assembler's state invariant: tree shape plus open-item shape. -/
def stInv (st : PState) : Bool := layersOK st.items && curOK st.cur

mutual

/-- The omit-empty-children contract at one node: the `children` key is
present exactly when the children sequence is nonempty. -/
def itemNoEmpty : Item → Bool
  | .mk _ _ _ _ _ hc ch =>
    (if hc then !ch.isNil else ch.isNil) && itemsNoEmpty ch

/-- The omit-empty-children contract everywhere in the tree (claim C9). -/
def itemsNoEmpty : Items → Bool
  | .nil => true
  | .cons it rest => itemNoEmpty it && itemsNoEmpty rest

end

mutual

/-- Modelled from the claim's words (C7): nesting depth of a subtree. -/
def itemTreeDepth : Item → Nat
  | .mk _ _ _ _ _ _ ch => 1 + itemsTreeDepth ch

/-- Modelled from the claim's words (C7): nesting depth of a tree — 0 for
the empty tree, else one more than the deepest child tree. -/
def itemsTreeDepth : Items → Nat
  | .nil => 0
  | .cons it rest => max (itemTreeDepth it) (itemsTreeDepth rest)

end

mutual

/-- Modelled from the claim's words (C3): every non-null `format` observed
on an item, those of the Pricing records in its `additional` list included,
then recursively below it. -/
def itemSpecFormats : Item → List (List Nat)
  | .mk _ _ _ p _ _ ch =>
    (match p with
     | none => []
     | some ip =>
       (match ip.parsed.bind (fun r => r.format) with
        | some f => [f]
        | none => []) ++
       (match ip.additional with
        | some l => l.filterMap (fun r => r.format)
        | none => [])) ++ itemsSpecFormats ch

/-- Modelled from the claim's words (C3), over a sequence. -/
def itemsSpecFormats : Items → List (List Nat)
  | .nil => []
  | .cons it rest => itemSpecFormats it ++ itemsSpecFormats rest

end

mutual

/-- `f` is the own-`format` of some item the `collect_patterns` walk
reaches (the walk recurses only into a present, nonempty `children` key). -/
def itemOwnFmt (f : List Nat) : Item → Bool
  | .mk n d lv p tp hc ch =>
    decide (fmtOf (.mk n d lv p tp hc ch) = some f) ||
    (hc && !ch.isNil && itemsOwnFmt f ch)

def itemsOwnFmt (f : List Nat) : Items → Bool
  | .nil => false
  | .cons it rest => itemOwnFmt f it || itemsOwnFmt f rest

end

/-- Ancestor-chain check of claim C7's well-formed scenario: every node
with `level` 3 sits at the third layer under a level-2 parent and a level-1
grandparent (no level-3 node higher up). -/
def anc3OK (l : Items) : Bool :=
  allItems (fun t =>
    (t.level != 3) &&
    allItems (fun c =>
      (c.level != 3) &&
      allItems (fun g => (g.level != 3) || (c.level == 2 && t.level == 1)) c.children)
      t.children) l

/-- Top-level `description` fields, in order. -/
def topDescs : Items → List (List Nat)
  | .nil => []
  | .cons it rest => it.description :: topDescs rest

/-- Top-level `total_price` fields, in order. -/
def topTotalPrices : Items → List (Option (List Nat))
  | .nil => []
  | .cons it rest => it.total_price :: topTotalPrices rest

/-- Top-level `number` fields, in order. -/
def topLabels : Items → List (List Nat)
  | .nil => []
  | .cons it rest => it.number :: topLabels rest

/-- Top-level `level` fields, in order. -/
def topLevels : Items → List Nat
  | .nil => []
  | .cons it rest => it.level :: topLevels rest

/-- The lines of the item section, as the assembly loop receives them. -/
def sectionLines (text : List Nat) : List (List Nat) :=
  match findJobSection text with
  | none => []
  | some sec => splitNL (strip (sec.take (endPos sec)))

/-- How many lines of the item section are classified as item starts. -/
def itemLineCount (text : List Nat) : Nat :=
  (sectionLines text).countP (fun l => detect_item_line (strip l))

/-! ## Concrete documents used in the proofs -/

/-- A depth-2 item with no depth-1 parent, followed by a depth-3 line. -/
def docMalformedRoman : List Nat := S "Job to be done:\na. Sub – ₱500\nii. Lost item"

/-- An item without inline pricing followed by a `Plus:` continuation. -/
def docAdditiveOnly : List Nat := S "Job to be done:\n1. Task\nPlus: Install – ₱500"

/-- A `Total Price` continuation line that carries no currency symbol. -/
def docTotalPriceNoCurrency : List Nat := S "Job to be done:\n1. Task\nTotal Price to be computed"

/-- A well-formed three-level document (depth 1 → 2 → 3 in order). -/
def docThreeLevel : List Nat := S "Job to be done:\n1. Area A\na. Clean unit – ₱600\nii. Filter"

/-- A well-formed two-level document. -/
def docTwoLevel : List Nat := S "Job to be done:\n1. A\na. B"

/-- A single top-level item with lump-sum pricing. -/
def docOneLump : List Nat := S "Job to be done:\n1. T – ₱5"

/-- A document with no `Job to be done` marker. -/
def docNoMarker : List Nat := S "Hello world, no marker here."

/-! # Lemmas -/

theorem isWS_toLower (c : Nat) : isWS (toLowerN c) = isWS c := by
  simp only [isWS, toLowerN]
  split
  · rename_i h
    simp only [Bool.and_eq_true, decide_eq_true_eq] at h
    have e1 : ∀ k, 65 ≤ k → k ≤ 90 →
        ((decide (k + 32 = 32) || decide (k + 32 = 9) || decide (k + 32 = 10) ||
          decide (k + 32 = 13) || decide (k + 32 = 11) || decide (k + 32 = 12)) = false) := by
      intro k h1 h2
      simp only [Bool.or_eq_false_iff, decide_eq_false_iff_not]
      omega
    have e2 : ((decide (c = 32) || decide (c = 9) || decide (c = 10) ||
        decide (c = 13) || decide (c = 11) || decide (c = 12)) = false) := by
      simp only [Bool.or_eq_false_iff, decide_eq_false_iff_not]
      omega
    rw [e1 c h.1 h.2, e2]
  · rfl

theorem isDigit_toLower (c : Nat) : isDigitN (toLowerN c) = isDigitN c := by
  simp only [isDigitN, toLowerN]
  split
  · rename_i h
    simp only [Bool.and_eq_true, decide_eq_true_eq] at h
    have e1 : (decide (48 ≤ c + 32) && decide (c + 32 ≤ 57)) = false := by
      simp only [Bool.and_eq_false_iff, decide_eq_false_iff_not]
      omega
    have e2 : (decide (48 ≤ c) && decide (c ≤ 57)) = false := by
      simp only [Bool.and_eq_false_iff, decide_eq_false_iff_not]
      omega
    rw [e1, e2]
  · rfl

theorem dropWhile_lower (s : List Nat) :
    (lowerStr s).dropWhile isWS = lowerStr (s.dropWhile isWS) := by
  induction s with
  | nil => rfl
  | cons c t ih =>
    simp only [lowerStr, List.map_cons, List.dropWhile_cons, isWS_toLower]
    split
    · simpa [lowerStr] using ih
    · rfl

theorem strip_lowerStr (s : List Nat) : strip (lowerStr s) = lowerStr (strip s) := by
  unfold strip
  rw [dropWhile_lower]
  show ((lowerStr (s.dropWhile isWS)).reverse.dropWhile isWS).reverse = _
  rw [show (lowerStr (s.dropWhile isWS)).reverse = lowerStr ((s.dropWhile isWS).reverse) by
    simp [lowerStr, List.map_reverse]]
  rw [dropWhile_lower]
  simp [lowerStr, List.map_reverse]

theorem isEmpty_lower (m : List Nat) : (lowerStr m).isEmpty = m.isEmpty := by
  cases m <;> rfl

theorem all_digit_lower (m : List Nat) : (lowerStr m).all isDigitN = m.all isDigitN := by
  induction m with
  | nil => rfl
  | cons c t ih =>
    simp only [lowerStr, List.map_cons, List.all_cons]
    rw [isDigit_toLower, show (List.map toLowerN t) = lowerStr t from rfl, ih]

theorem all_roman_lower (m : List Nat) : (lowerStr m).all isRomanLowerN = m.all isRomanCIN := by
  induction m with
  | nil => rfl
  | cons c t ih =>
    simp only [lowerStr, List.map_cons, List.all_cons]
    rw [show isRomanLowerN (toLowerN c) = isRomanCIN c from rfl,
        show (List.map toLowerN t) = lowerStr t from rfl, ih]

theorem single_lower_match (m : List Nat) :
    isSingleLowerAlpha (lowerStr m) = (decide (m.length = 1) && m.all isAlphaCIN) := by
  cases m with
  | nil => rfl
  | cons c t =>
    cases t with
    | nil => simp [lowerStr, isSingleLowerAlpha, isAlphaCIN]
    | cons d u => simp [lowerStr, isSingleLowerAlpha]

/-! # Claim theorems -/

/-- C4 (counterexample): the claim as stated fails at the label `" 1 "`:
`determine_hierarchy_level` strips it and returns 1, while the claimed
classification puts a whitespace-bearing label in the "anything else"
bucket, depth 0. -/
theorem c4_whitespace_label_counterexample :
    determine_hierarchy_level (S " 1 ") = 1 ∧ resolve_depth_spec (S " 1 ") = 0 ∧
    ¬ determine_hierarchy_level (S " 1 ") = resolve_depth_spec (S " 1 ") :=
  ⟨by decide, by decide, by decide⟩

/-- C4 (amended): after trimming surrounding whitespace, `resolve_depth`
classifies every label exactly as the claim states (case-insensitively):
all-digit → 1, two-or-more roman characters → 3, exactly one alphabetic
character → 2, empty or anything else → 0. -/
theorem c4_resolve_depth_eq_spec (s : List Nat) :
    determine_hierarchy_level s = resolve_depth_spec (strip s) := by
  unfold determine_hierarchy_level classifyLabel resolve_depth_spec
  rw [strip_lowerStr]
  generalize strip s = m
  rw [isEmpty_lower, all_digit_lower, single_lower_match, all_roman_lower]
  have hdec : decide (1 < (lowerStr m).length) = decide (2 ≤ m.length) := by
    have hl : (lowerStr m).length = m.length := by simp [lowerStr]
    rw [hl]
    exact decide_eq_decide.mpr (by omega)
  rw [hdec]
  cases he : m.isEmpty with
  | true =>
    have h0 : m = [] := by
      cases m with
      | nil => rfl
      | cons c t => simp [List.isEmpty] at he
    subst h0
    rfl
  | false => simp [he]

/-- C1 (counterexample): in a document whose section has two item-start
lines — a depth-2 line with no depth-1 parent, then a depth-3 line — the
depth-3 line is lost: the returned tree has a single node (label `a`,
level 2) and the `ii` item was appended nowhere, contrary to the claim that
every such item becomes a new top-level item and no item-start line is
lost. -/
theorem c1_dropped_item_counterexample :
    itemLineCount docMalformedRoman = 2 ∧
    (parse_item_section docMalformedRoman).map itemsNodes = some 1 ∧
    (parse_item_section docMalformedRoman).map topLabels = some [S "a"] ∧
    (parse_item_section docMalformedRoman).map topLevels = some [2] :=
  ⟨by decide, by decide, by decide, by decide⟩

/-- C2 (counterexample): the fragment `"₱600/unit each – ₱29,400"` carries a
currency-prefixed integer after a separator, does not contain an additive
marker, does not match the unit-based regex, and has a `/unit` marker (so
it is outside the spec's lump-sum pattern, which requires "no unit
marker"); the claim classifies it `calculation` with the first
currency-prefixed integer 600 as amount, but the code returns `lump-sum`
with amount 29400 — the code's calculation guard is the very regex of the
lump-sum branch, so the calculation branch is unreachable. -/
theorem c2_calculation_unreachable_counterexample :
    containsSub (S "/unit") (S "₱600/unit each – ₱29,400") = true ∧
    addTrigger (S "₱600/unit each – ₱29,400") = false ∧
    searchUnit (S "₱600/unit each – ₱29,400") = none ∧
    (searchSep (S "₱600/unit each – ₱29,400")).isSome = true ∧
    searchCurrencyInt (S "₱600/unit each – ₱29,400") = some (S "600") ∧
    parse_pricing_from_line (S "₱600/unit each – ₱29,400") =
      some { format := some (S "lump-sum"), raw := S "₱600/unit each – ₱29,400",
             amount := some 29400 } :=
  ⟨by decide, by decide, by decide, by decide, by decide, by decide⟩

/-- C3 (counterexample): for an item whose only pricing is an additive
record appended to its `additional` list, the tree observes the non-null
format `"additive"` (inside `additional`), yet `pricing_patterns` is empty:
`collect_patterns` reads only each item's own `format` key. -/
theorem c3_additional_not_collected_counterexample :
    (extract_quotation_items docAdditiveOnly (S "f")).map (fun r => r.pricing_patterns) =
      some [] ∧
    (extract_quotation_items docAdditiveOnly (S "f")).map
        (fun r => (itemsSpecFormats r.items).contains (S "additive")) = some true :=
  ⟨by decide, by decide⟩

/-- C5 (code bug): the classifier returns the claimed additive record on the
spec's example, but on the marker-bearing fragment `"Plus: – ₱,"` the
amount capture `[\d,]+` matches the lone comma and `int('')` raises
`ValueError` instead of returning a record. -/
theorem c5_additive_example_and_value_error :
    parse_pricing_from_line (S "Plus: Installation – ₱19,500") =
      some { format := some (S "additive"), raw := S "Plus: Installation – ₱19,500",
             label := some (S "Installation"), amount := some 19500 } ∧
    addTrigger (S "Plus: – ₱,") = true ∧
    parse_pricing_from_line (S "Plus: – ₱,") = none :=
  ⟨by decide, by decide, by decide⟩

/-- C6 (counterexample): a line containing the `Total Price` marker but no
currency symbol is appended to the open item's description, and no
`total_price` note is stored — contrary to the claim that every such line
is stored verbatim as the note and never appended to the description. -/
theorem c6_no_currency_counterexample :
    containsSub (S "Total Price") (S "Total Price to be computed") = true ∧
    (parse_item_section docTotalPriceNoCurrency).map topTotalPrices = some [none] ∧
    (parse_item_section docTotalPriceNoCurrency).map topDescs =
      some [S "Task Total Price to be computed"] :=
  ⟨by decide, by decide, by decide⟩

/-- C8: a document without the `Job to be done` start marker (followed by a
colon after optional whitespace) parses to the empty item sequence without
raising, and the document record has `item_count = 0`,
`hierarchy_depth = 0` and `pricing_patterns = []`. -/
theorem c8_no_marker_empty (text fname : List Nat)
    (h : findJobSection text = none) :
    parse_item_section text = some Items.nil ∧
    extract_quotation_items text fname =
      some { filename := fname, items := Items.nil, item_count := 0,
             hierarchy_depth := 0, has_location_grouping := false,
             pricing_patterns := [] } := by
  have hp : parse_item_section text = some Items.nil := by
    unfold parse_item_section
    rw [h]
  refine ⟨hp, ?_⟩
  unfold extract_quotation_items
  rw [hp]
  rfl

/-- C8 witness at a concrete marker-free document. -/
theorem c8_no_marker_empty_witness :
    parse_item_section docNoMarker = some Items.nil ∧
    extract_quotation_items docNoMarker (S "f") =
      some { filename := S "f", items := Items.nil, item_count := 0,
             hierarchy_depth := 0, has_location_grouping := false,
             pricing_patterns := [] } :=
  c8_no_marker_empty docNoMarker (S "f") (by decide)

mutual

theorem itemNoEmpty_clean : ∀ it : Item, itemNoEmpty (clean_item it) = true
  | .mk n d lv p tp hc .nil => by
    simp [clean_item, itemNoEmpty, itemsNoEmpty, Items.isNil]
  | .mk n d lv p tp hc (.cons c cs) => by
    simp [clean_item, clean_items, itemNoEmpty, itemsNoEmpty, Items.isNil,
          itemNoEmpty_clean c, itemsNoEmpty_clean cs]

theorem itemsNoEmpty_clean : ∀ l : Items, itemsNoEmpty (clean_items l) = true
  | .nil => rfl
  | .cons it rest => by
    simp [clean_items, itemsNoEmpty, itemNoEmpty_clean it, itemsNoEmpty_clean rest]

end

/-- Every tree `parse_item_section` returns went through the clean pass. -/
theorem parse_noEmpty {text : List Nat} {items : Items}
    (h : parse_item_section text = some items) : itemsNoEmpty items = true := by
  unfold parse_item_section at h
  split at h
  · injection h with h
    subst h
    rfl
  · split at h
    · exact Option.noConfusion h
    · injection h with h
      subst h
      exact itemsNoEmpty_clean _

/-- C9: in every tree `parse_item_section` returns, the `children` key is
absent (not present-empty) on childless items and present with a nonempty
sequence otherwise, at every depth. -/
theorem c9_omit_empty_children (text : List Nat) (items : Items)
    (h : parse_item_section text = some items) : itemsNoEmpty items = true :=
  parse_noEmpty h

/-- C9 witness: the two-level document's parsed tree satisfies the
omit-empty-children contract. -/
theorem c9_omit_empty_children_witness :
    itemsNoEmpty (Items.cons (Item.mk (S "1") (S "A") 1 none none true
      (Items.cons (Item.mk (S "a") (S "B") 2 none none false Items.nil) Items.nil))
      Items.nil) = true :=
  c9_omit_empty_children docTwoLevel _ (by rfl)

theorem gmd_eq : ∀ (l : Items) (d acc : Nat), itemsNoEmpty l = true → 1 ≤ d → d ≤ acc →
    get_max_depth l d acc = max acc (d - 1 + itemsTreeDepth l)
  | .nil, d, acc, _, h1, h2 => by
    simp [get_max_depth, itemsTreeDepth]
    omega
  | .cons (.mk n ds lv p tp hc ch) rest, d, acc, hne, h1, h2 => by
    have hsp : itemNoEmpty (.mk n ds lv p tp hc ch) = true ∧ itemsNoEmpty rest = true := by
      simpa [itemsNoEmpty] using hne
    cases hch : ch with
    | nil =>
      have ih := gmd_eq rest d acc hsp.2 h1 h2
      simp only [get_max_depth, Items.isNil, Bool.not_true, Bool.and_false,
        Bool.false_eq_true, if_false, ih, itemsTreeDepth, itemTreeDepth]
      omega
    | cons c cs =>
      have hhc : hc = true ∧ itemsNoEmpty (Items.cons c cs) = true := by
        have hx := hsp.1
        rw [hch] at hx
        simpa [itemNoEmpty, Items.isNil] using hx
      have ihin := gmd_eq (Items.cons c cs) (d + 1) (d + 1) hhc.2 (by omega) (by omega)
      have ihout := gmd_eq rest d
        (max acc (get_max_depth (Items.cons c cs) (d + 1) (d + 1))) hsp.2 h1 (by omega)
      have hg : 1 ≤ itemTreeDepth c := by
        cases c with
        | mk n2 d2 lv2 p2 tp2 hc2 ch2 => simp [itemTreeDepth]
      simp only [get_max_depth, hhc.1, Items.isNil, Bool.not_false, Bool.and_true,
        if_true]
      rw [ihout, ihin]
      simp only [itemsTreeDepth, itemTreeDepth]
      omega

/-- On a cleaned tree, the source's `hierarchy_depth` computation is the
nesting depth of the tree. -/
theorem hierarchy_depth_eq_treeDepth {l : Items} (h : itemsNoEmpty l = true) :
    (if l.isNil then 0 else get_max_depth l 1 1) = itemsTreeDepth l := by
  cases l with
  | nil => rfl
  | cons it rest =>
    have he := gmd_eq (.cons it rest) 1 1 h (Nat.le_refl 1) (Nat.le_refl 1)
    simp only [Items.isNil, Bool.false_eq_true, if_false, he]
    cases it with
    | mk n d lv p tp hc ch =>
      simp only [itemsTreeDepth, itemTreeDepth]
      omega

/-- C7: `hierarchy_depth` is the nesting depth of the returned tree — 0 for
an empty tree, 1 when only top-level items exist — and the well-formed
three-level document yields depth 3 with every level-3 node under a level-2
parent and level-1 grandparent. -/
theorem c7_hierarchy_depth_is_tree_depth :
    (∀ text fname r, extract_quotation_items text fname = some r →
      r.hierarchy_depth = itemsTreeDepth r.items) ∧
    (extract_quotation_items docThreeLevel (S "f")).map (fun r => r.hierarchy_depth) =
      some 3 ∧
    (parse_item_section docThreeLevel).map anc3OK = some true ∧
    (extract_quotation_items docNoMarker (S "f")).map (fun r => r.hierarchy_depth) =
      some 0 ∧
    (extract_quotation_items docOneLump (S "f")).map (fun r => r.hierarchy_depth) =
      some 1 := by
  refine ⟨?_, by decide, by decide, by decide, by decide⟩
  intro text fname r h
  unfold extract_quotation_items at h
  cases hp : parse_item_section text with
  | none => rw [hp] at h; exact Option.noConfusion h
  | some items =>
    rw [hp] at h
    injection h with h
    subst h
    exact hierarchy_depth_eq_treeDepth (parse_noEmpty hp)

theorem appendChild_level (it c : Item) : (it.appendChild c).level = it.level := by
  cases it
  rfl

theorem appendChild_children (it c : Item) :
    (it.appendChild c).children = it.children.snoc c := by
  cases it
  rfl

theorem allItems_snoc (p : Item → Bool) : ∀ (l : Items) (it : Item),
    allItems p (l.snoc it) = (allItems p l && p it)
  | .nil, it => by simp [Items.snoc, allItems]
  | .cons h t, it => by
    simp [Items.snoc, allItems, allItems_snoc p t it, Bool.and_assoc]

theorem allItems_cons (p : Item → Bool) (it : Item) (l : Items) :
    allItems p (Items.cons it l) = (p it && allItems p l) := rfl

theorem allItems_modifyLast (p : Item → Bool) (f : Item → Item)
    (hf : ∀ q, p q = true → p (f q) = true) :
    ∀ l, allItems p l = true → allItems p (Items.modifyLast f l) = true
  | .nil, h => h
  | .cons a .nil, h => by
    rw [allItems_cons, Bool.and_eq_true] at h
    show allItems p (Items.cons (f a) Items.nil) = true
    rw [allItems_cons, Bool.and_eq_true]
    exact ⟨hf a h.1, rfl⟩
  | .cons a (.cons b t), h => by
    rw [allItems_cons, Bool.and_eq_true] at h
    show allItems p (Items.cons a (Items.modifyLast f (Items.cons b t))) = true
    rw [allItems_cons, Bool.and_eq_true]
    exact ⟨h.1, allItems_modifyLast p f hf (.cons b t) h.2⟩

theorem topOK_appendChild (it c : Item) (h1 : topOK it = true) (h2 : childOK c = true) :
    topOK (it.appendChild c) = true := by
  unfold topOK at h1 ⊢
  rw [appendChild_children, allItems_snoc]
  simp [h1, h2]

theorem childOK_appendChild (w g : Item) (h1 : childOK w = true) (h2 : gchildOK g = true) :
    childOK (w.appendChild g) = true := by
  unfold childOK at h1 ⊢
  rw [appendChild_level, appendChild_children, allItems_snoc]
  simp only [Bool.and_eq_true] at h1 ⊢
  exact ⟨h1.1, h1.2, h2⟩

theorem flush_layersOK : ∀ (items : Items) (cur : Option (Tag × Item)),
    layersOK items = true → curOK cur = true → layersOK (flush items cur) = true := by
  intro items cur h1 h2
  match cur with
  | none => exact h1
  | some (.top, it) =>
    unfold layersOK at h1 ⊢
    unfold flush
    rw [allItems_snoc]
    simp only [Bool.and_eq_true]
    exact ⟨h1, h2⟩
  | some (.child, it) =>
    unfold flush
    exact allItems_modifyLast topOK _ (fun q hq => topOK_appendChild q it hq h2) items h1
  | some (.grand, it) =>
    unfold flush
    apply allItems_modifyLast topOK _ ?_ items h1
    intro q hq
    cases q with
    | mk n d lv p tp hc ch =>
      unfold topOK at hq ⊢
      simp only [Item.children] at hq ⊢
      exact allItems_modifyLast childOK _
        (fun w hw => childOK_appendChild w it hw h2) ch hq
  | some (.drop, _) => exact h1

theorem gchildOK_clean (g : Item) (h : gchildOK g = true) : gchildOK (clean_item g) = true := by
  cases g with
  | mk n d lv p tp hc ch =>
    cases ch with
    | nil => simpa [clean_item, gchildOK, Items.isNil, Item.level, Item.children] using h
    | cons c cs =>
      simp [gchildOK, Items.isNil, Item.children] at h

theorem allG_clean : ∀ l, allItems gchildOK l = true → allItems gchildOK (clean_items l) = true
  | .nil, h => h
  | .cons it rest, h => by
    simp only [clean_items, allItems, Bool.and_eq_true] at h ⊢
    exact ⟨gchildOK_clean it h.1, allG_clean rest h.2⟩

theorem childOK_clean (c : Item) (h : childOK c = true) : childOK (clean_item c) = true := by
  cases c with
  | mk n d lv p tp hc ch =>
    cases ch with
    | nil => simpa [clean_item, childOK, allItems, Item.level, Item.children] using h
    | cons x xs =>
      unfold childOK at h ⊢
      simp only [clean_item, Item.level, Item.children, Bool.and_eq_true] at h ⊢
      exact ⟨h.1, allG_clean (.cons x xs) h.2⟩

theorem allC_clean : ∀ l, allItems childOK l = true → allItems childOK (clean_items l) = true
  | .nil, h => h
  | .cons it rest, h => by
    simp only [clean_items, allItems, Bool.and_eq_true] at h ⊢
    exact ⟨childOK_clean it h.1, allC_clean rest h.2⟩

theorem topOK_clean (t : Item) (h : topOK t = true) : topOK (clean_item t) = true := by
  cases t with
  | mk n d lv p tp hc ch =>
    cases ch with
    | nil => simp [clean_item, topOK, allItems, Item.children]
    | cons x xs =>
      unfold topOK at h ⊢
      simp only [clean_item, Item.children] at h ⊢
      exact allC_clean (.cons x xs) h

theorem layersOK_clean : ∀ l, layersOK l = true → layersOK (clean_items l) = true
  | .nil, h => h
  | .cons it rest, h => by
    unfold layersOK at h ⊢
    simp only [clean_items, allItems, Bool.and_eq_true] at h ⊢
    exact ⟨topOK_clean it h.1, layersOK_clean rest h.2⟩

theorem setTotalPrice_pres (l : List Nat) (q : Item) :
    (setTotalPrice l q).level = q.level ∧ (setTotalPrice l q).children = q.children := by
  cases q
  exact ⟨rfl, rfl⟩

theorem addAdditional_pres (r : PricingRec) (q : Item) :
    (addAdditional r q).level = q.level ∧ (addAdditional r q).children = q.children := by
  cases q
  exact ⟨rfl, rfl⟩

theorem addCalculation_pres (l : List Nat) (q : Item) :
    (addCalculation l q).level = q.level ∧ (addCalculation l q).children = q.children := by
  cases q
  exact ⟨rfl, rfl⟩

theorem appendDesc_pres (l : List Nat) (q : Item) :
    (appendDesc l q).level = q.level ∧ (appendDesc l q).children = q.children := by
  cases q
  exact ⟨rfl, rfl⟩

theorem curOK_shape (tg : Tag) (it : Item) (f : Item → Item)
    (hf : ∀ q, (f q).level = q.level ∧ (f q).children = q.children) :
    curOK (some (tg, f it)) = curOK (some (tg, it)) := by
  cases tg with
  | top =>
    show topOK (f it) = topOK it
    unfold topOK
    rw [(hf it).2]
  | child =>
    show childOK (f it) = childOK it
    unfold childOK
    rw [(hf it).1, (hf it).2]
  | grand =>
    show gchildOK (f it) = gchildOK it
    unfold gchildOK
    rw [(hf it).1, (hf it).2]
  | drop => rfl

theorem stInv_applyCur (st : PState) (f : Item → Item)
    (hf : ∀ q, (f q).level = q.level ∧ (f q).children = q.children)
    (h : stInv st = true) : stInv (applyCur st f) = true := by
  unfold stInv at h
  unfold stInv applyCur
  cases hc : st.cur with
  | none => exact h
  | some tgit =>
    obtain ⟨tg, it⟩ := tgit
    rw [hc] at h
    show (layersOK st.items && curOK (some (tg, f it))) = true
    simp only [Bool.and_eq_true] at h
    simp only [Bool.and_eq_true]
    refine ⟨h.1, ?_⟩
    rw [curOK_shape tg it f hf]
    exact h.2

theorem placeItem_stInv (st : PState) (newIt : Item) (level : Nat) (st' : PState)
    (h : placeItem st newIt level = some st')
    (hinv : stInv st = true)
    (hnew : newIt.children = Items.nil) (hlev : newIt.level = level) :
    stInv st' = true := by
  have hfl : layersOK (flushState st) = true := by
    have hc := hinv
    unfold stInv at hc
    rw [Bool.and_eq_true] at hc
    exact flush_layersOK st.items st.cur hc.1 hc.2
  have htop : topOK newIt = true := by
    unfold topOK
    rw [hnew]
    rfl
  unfold placeItem at h
  split at h
  · injection h with h
    subst h
    simp only [stInv, curOK, Bool.and_eq_true]
    exact ⟨hfl, htop⟩
  · split at h
    · split at h
      · exact Option.noConfusion h
      · injection h with h
        subst h
        rename_i hcond _
        simp only [Bool.and_eq_true, decide_eq_true_eq] at hcond
        simp only [stInv, curOK, Bool.and_eq_true]
        refine ⟨hfl, ?_⟩
        unfold childOK
        rw [hnew, hlev]
        simp [hcond.1, allItems]
    · split at h
      · split at h
        · injection h with h
          subst h
          rename_i hcond _
          simp only [Bool.and_eq_true, decide_eq_true_eq] at hcond
          simp only [stInv, curOK, Bool.and_eq_true]
          refine ⟨hfl, ?_⟩
          unfold gchildOK
          rw [hnew, hlev]
          simp [hcond.1, Items.isNil]
        · injection h with h
          subst h
          simp only [stInv, curOK, Bool.and_eq_true]
          exact ⟨hfl, trivial⟩
      · injection h with h
        subst h
        simp only [stInv, curOK, Bool.and_eq_true]
        exact ⟨hfl, htop⟩

theorem processLine_stInv (st : PState) (line : List Nat) (st' : PState)
    (h : processLine st line = some st') (hinv : stInv st = true) : stInv st' = true := by
  unfold processLine at h
  split at h
  · injection h with h
    subst h
    exact hinv
  · split at h
    · unfold processItemLine at h
      split at h
      · exact Option.noConfusion h
      · exact placeItem_stInv st _ _ st' h hinv rfl rfl
    · split at h
      · injection h with h
        subst h
        exact hinv
      · unfold processContinuation at h
        split at h
        · split at h
          · split at h
            · injection h with h
              subst h
              exact stInv_applyCur st _ (setTotalPrice_pres (strip line)) hinv
            · split at h
              · exact Option.noConfusion h
              · injection h with h
                subst h
                exact stInv_applyCur st _ (addAdditional_pres _) hinv
          · injection h with h
            subst h
            exact stInv_applyCur st _ (addCalculation_pres (strip line)) hinv
        · injection h with h
          subst h
          exact stInv_applyCur st _ (appendDesc_pres (strip line)) hinv

theorem processLines_stInv : ∀ (lines : List (List Nat)) (st st' : PState),
    processLines st lines = some st' → stInv st = true → stInv st' = true
  | [], st, st', h, hi => by
    injection h with h
    subst h
    exact hi
  | l :: rest, st, st', h, hi => by
    unfold processLines at h
    split at h
    · exact Option.noConfusion h
    · rename_i st1 h1
      exact processLines_stInv rest st1 st' h (processLine_stInv st l st1 h1 hi)

/-- C10: in every returned tree, direct children of top-level items have
level exactly 2, grandchildren have level exactly 3, and no item is nested
deeper than three layers (grandchildren are childless). -/
theorem c10_layer_levels (text : List Nat) (items : Items)
    (h : parse_item_section text = some items) : layersOK items = true := by
  unfold parse_item_section at h
  split at h
  · injection h with h
    subst h
    rfl
  · split at h
    · exact Option.noConfusion h
    · rename_i st hst
      injection h with h
      subst h
      have hinv : stInv st = true := processLines_stInv _ _ _ hst rfl
      unfold stInv at hinv
      rw [Bool.and_eq_true] at hinv
      exact layersOK_clean _ (flush_layersOK st.items st.cur hinv.1 hinv.2)

/-- C10 witness: the three-level document's parsed tree has the layer
shape. -/
theorem c10_layer_levels_witness :
    layersOK (Items.cons (Item.mk (S "1") (S "Area A") 1 none none true
      (Items.cons (Item.mk (S "a") (S "Clean unit") 2
        (some ⟨some { format := some (S "lump-sum"), raw := S "Clean unit – ₱600",
                      amount := some 600 }, none, none⟩) none true
        (Items.cons (Item.mk (S "ii") (S "Filter") 3 none none false Items.nil)
          Items.nil))
      Items.nil)) Items.nil) = true :=
  c10_layer_levels docThreeLevel _ (by rfl)

theorem lexLe_total : ∀ a b : List Nat, lexLe a b = true ∨ lexLe b a = true
  | [], _ => Or.inl rfl
  | _ :: _, [] => Or.inr rfl
  | a :: as, b :: bs => by
    unfold lexLe
    by_cases h1 : a < b
    · left
      simp [h1]
    · by_cases h2 : b < a
      · right
        simp [h2, h1]
      · rcases lexLe_total as bs with h | h
        · left
          simp [h1, h2, h]
        · right
          simp [h1, h2, h]

theorem lexLe_trans : ∀ a b c : List Nat,
    lexLe a b = true → lexLe b c = true → lexLe a c = true
  | [], _, _, _, _ => rfl
  | _ :: _, [], _, h1, _ => by simp [lexLe] at h1
  | _ :: _, _ :: _, [], _, h2 => by simp [lexLe] at h2
  | a :: as, b :: bs, c :: cs, h1, h2 => by
    unfold lexLe at h1 h2 ⊢
    by_cases hab : a < b
    · by_cases hbc : b < c
      · simp [show a < c by omega]
      · by_cases hcb : c < b
        · simp [hbc, hcb] at h2
        · have hbc' : b = c := by omega
          subst hbc'
          simp [hab]
    · by_cases hba : b < a
      · simp [hab, hba] at h1
      · have hab' : a = b := by omega
        subst hab'
        rw [if_neg hab, if_neg hba] at h1
        by_cases hac : a < c
        · rw [if_pos hac]
        · by_cases hca : c < a
          · rw [if_neg hac, if_pos hca] at h2
            exact absurd h2 (by simp)
          · rw [if_neg hac, if_neg hca] at h2 ⊢
            exact lexLe_trans as bs cs h1 h2

theorem mem_insertLe (x y : List Nat) : ∀ l, y ∈ insertLe x l ↔ y = x ∨ y ∈ l
  | [] => by simp [insertLe]
  | z :: zs => by
    unfold insertLe
    split
    · simp [List.mem_cons]
    · rw [List.mem_cons, List.mem_cons, mem_insertLe x y zs]
      tauto

theorem pairwise_insertLe (x : List Nat) :
    ∀ l, l.Pairwise (fun a b => lexLe a b = true) →
      (insertLe x l).Pairwise (fun a b => lexLe a b = true)
  | [], _ => by simp [insertLe]
  | z :: zs, h => by
    unfold insertLe
    split
    · rename_i hxz
      refine List.Pairwise.cons ?_ h
      intro b hb
      rcases List.mem_cons.mp hb with rfl | hb
      · exact hxz
      · exact lexLe_trans x z b hxz (List.rel_of_pairwise_cons h hb)
    · rename_i hxz
      have hzx : lexLe z x = true := by
        rcases lexLe_total x z with h' | h'
        · exact absurd h' hxz
        · exact h'
      rcases List.pairwise_cons.mp h with ⟨hz, hzs⟩
      refine List.pairwise_cons.mpr ⟨?_, pairwise_insertLe x zs hzs⟩
      intro b hb
      rcases (mem_insertLe x b zs).mp hb with rfl | hb
      · exact hzx
      · exact hz b hb

theorem nodup_insertLe (x : List Nat) :
    ∀ l, l.Nodup → x ∉ l → (insertLe x l).Nodup
  | [], _, _ => by simp [insertLe]
  | z :: zs, h, hx => by
    unfold insertLe
    split
    · exact List.nodup_cons.mpr ⟨hx, h⟩
    · rcases List.nodup_cons.mp h with ⟨hz, hzs⟩
      refine List.nodup_cons.mpr
        ⟨?_, nodup_insertLe x zs hzs (fun hh => hx (List.mem_cons_of_mem _ hh))⟩
      intro hzin
      rcases (mem_insertLe x z zs).mp hzin with h' | h'
      · exact hx (h' ▸ List.mem_cons_self z zs)
      · exact hz h'

theorem mem_sortLex (y : List Nat) : ∀ l, y ∈ sortLex l ↔ y ∈ l
  | [] => Iff.rfl
  | x :: xs => by
    unfold sortLex
    rw [mem_insertLe, mem_sortLex y xs, List.mem_cons]

theorem pairwise_sortLex : ∀ l, (sortLex l).Pairwise (fun a b => lexLe a b = true)
  | [] => List.Pairwise.nil
  | x :: xs => pairwise_insertLe x _ (pairwise_sortLex xs)

theorem nodup_sortLex : ∀ l, l.Nodup → (sortLex l).Nodup
  | [], h => h
  | x :: xs, h => by
    rcases List.nodup_cons.mp h with ⟨hx, hxs⟩
    exact nodup_insertLe x _ (nodup_sortLex xs hxs)
      (fun hh => hx ((mem_sortLex x xs).mp hh))

theorem mem_setAdd (y x : List Nat) (l : List (List Nat)) :
    y ∈ setAdd x l ↔ y = x ∨ y ∈ l := by
  unfold setAdd
  split
  · rename_i hc
    constructor
    · exact Or.inr
    · rintro (rfl | h)
      · exact List.mem_of_elem_eq_true hc
      · exact h
  · rw [List.mem_append, List.mem_singleton]
    tauto

theorem nodup_setAdd (x : List Nat) (l : List (List Nat)) (h : l.Nodup) :
    (setAdd x l).Nodup := by
  unfold setAdd
  split
  · exact h
  · rename_i hc
    have hx : x ∉ l := fun hm => hc (List.elem_eq_true_of_mem hm)
    rw [List.nodup_append]
    exact ⟨h, List.nodup_singleton x,
      fun a ha hax => hx (List.mem_singleton.mp hax ▸ ha)⟩

theorem nodup_addFmt (it : Item) (acc : List (List Nat)) (h : acc.Nodup) :
    (addFmt it acc).Nodup := by
  unfold addFmt
  split
  · exact nodup_setAdd _ _ h
  · exact h

theorem mem_addFmt (f : List Nat) (it : Item) (acc : List (List Nat)) :
    f ∈ addFmt it acc ↔ fmtOf it = some f ∨ f ∈ acc := by
  unfold addFmt
  split
  · rename_i g hg
    rw [mem_setAdd, hg]
    simp [eq_comm]
  · rename_i hg
    rw [hg]
    simp

theorem nodup_collect : ∀ (l : Items) (acc : List (List Nat)),
    acc.Nodup → (collect_patterns l acc).Nodup
  | .nil, _, h => h
  | .cons (.mk n d lv p tp hc ch) rest, acc, h => by
    unfold collect_patterns
    split
    · exact nodup_collect rest _ (nodup_collect ch _ (nodup_addFmt _ _ h))
    · exact nodup_collect rest _ (nodup_addFmt _ _ h)

theorem mem_collect (f : List Nat) : ∀ (l : Items) (acc : List (List Nat)),
    f ∈ collect_patterns l acc ↔ itemsOwnFmt f l = true ∨ f ∈ acc
  | .nil, acc => by simp [collect_patterns, itemsOwnFmt]
  | .cons (.mk n d lv p tp hc ch) rest, acc => by
    unfold collect_patterns
    split
    · rename_i hguard
      rw [mem_collect f rest _, mem_collect f ch _, mem_addFmt]
      simp only [itemsOwnFmt, itemOwnFmt, hguard, Bool.true_and, Bool.or_eq_true,
        decide_eq_true_eq]
      tauto
    · rename_i hguard
      rw [mem_collect f rest _, mem_addFmt]
      rw [Bool.not_eq_true] at hguard
      simp only [itemsOwnFmt, itemOwnFmt, hguard, Bool.false_and, Bool.or_false,
        Bool.or_eq_true, decide_eq_true_eq]
      tauto

/-- C3 (amended): `pricing_patterns` is sorted and duplicate-free, and its
members are exactly the non-null own-`format` values of the items
(`collect_patterns` never reads the formats inside `additional` lists). -/
theorem c3_pricing_patterns_sorted_own_formats (text fname : List Nat) (r : ParseResult)
    (h : extract_quotation_items text fname = some r) :
    r.pricing_patterns.Pairwise (fun a b => lexLe a b = true) ∧
    r.pricing_patterns.Nodup ∧
    ∀ f, f ∈ r.pricing_patterns ↔ itemsOwnFmt f r.items = true := by
  unfold extract_quotation_items at h
  split at h
  · exact Option.noConfusion h
  · rename_i items hp
    injection h with h
    subst h
    refine ⟨pairwise_sortLex _, nodup_sortLex _ (nodup_collect _ [] List.nodup_nil), ?_⟩
    intro f
    show f ∈ sortLex (collect_patterns items []) ↔ itemsOwnFmt f items = true
    rw [mem_sortLex, mem_collect]
    simp

/-- C3 witness: the lump-sum document's record. -/
theorem c3_pricing_patterns_witness :
    ([S "lump-sum"] : List (List Nat)).Pairwise (fun a b => lexLe a b = true) ∧
    ([S "lump-sum"] : List (List Nat)).Nodup ∧
    ∀ f, f ∈ ([S "lump-sum"] : List (List Nat)) ↔
      itemsOwnFmt f (Items.cons (Item.mk (S "1") (S "T") 1
        (some ⟨some { format := some (S "lump-sum"), raw := S "T – ₱5",
                      amount := some 5 }, none, none⟩) none false Items.nil)
        Items.nil) = true :=
  c3_pricing_patterns_sorted_own_formats docOneLump (S "f")
    ⟨S "f",
     Items.cons (Item.mk (S "1") (S "T") 1
       (some ⟨some { format := some (S "lump-sum"), raw := S "T – ₱5",
                     amount := some 5 }, none, none⟩) none false Items.nil) Items.nil,
     1, 1, false, [S "lump-sum"]⟩ (by rfl)

/-- C2 (amended): `classify_pricing` never returns format `"calculation"` —
the fallback branch re-tests the very regex whose lump-sum branch already
returned, so it is unreachable — and every fragment with a
currency-prefixed integer after a separator that is neither
additive-marked nor unit-based is classified `"lump-sum"` (or raises
`ValueError` on an all-comma amount token). -/
theorem c2_no_calculation_format (text : List Nat) :
    (parse_pricing_from_line text).bind (fun r => r.format) ≠ some (S "calculation") ∧
    (addTrigger text = false → searchUnit text = none → (searchSep text).isSome = true →
      ((parse_pricing_from_line text).bind (fun r => r.format) = some (S "lump-sum") ∨
        parse_pricing_from_line text = none)) := by
  constructor
  · unfold parse_pricing_from_line
    split
    · split
      · simp only [Option.some_bind]
        intro hx
        exact absurd (by simpa using hx) (by decide : ¬ S "additive" = S "calculation")
      · split
        · simp
        · simp only [Option.some_bind]
          intro hx
          exact absurd (by simpa using hx) (by decide : ¬ S "additive" = S "calculation")
    · split
      · split
        · simp
        · split
          · simp
          · simp only [Option.some_bind]
            intro hx
            exact absurd (by simpa using hx)
              (by decide : ¬ S "unit-based" = S "calculation")
      · split
        · split
          · simp
          · simp only [Option.some_bind]
            intro hx
            exact absurd (by simpa using hx)
              (by decide : ¬ S "lump-sum" = S "calculation")
        · rename_i hsep
          rw [if_neg (by simp [hsep])]
          simp
  · intro h1 h2 h3
    rcases Option.isSome_iff_exists.mp h3 with ⟨run, hrun⟩
    unfold parse_pricing_from_line
    simp only [h1, Bool.false_eq_true, if_false, h2, hrun]
    cases hint : intOfRun run with
    | none =>
      right
      simp [hint]
    | some amt =>
      left
      simp [hint]

/-- C6 (amended): a non-item continuation line containing `₱` and the exact
substring `Total Price`, processed while an item is open, is stored
verbatim as that item's total-price note and nothing else in the state
changes — in particular the line is appended to no description,
`additional` list or `calculations` list. -/
theorem c6_total_price_note (st : PState) (line : List Nat) (tg : Tag) (it : Item)
    (hstrip : strip line = line)
    (hdet : detect_item_line line = false)
    (hcur : st.cur = some (tg, it))
    (hpeso : containsSub [peso] line = true)
    (htp : containsSub (S "Total Price") line = true) :
    processLine st line = some ⟨st.items, some (tg, setTotalPrice line it), st.prev⟩ := by
  have hne : line.isEmpty = false := by
    cases line with
    | nil => exact absurd hpeso (by decide)
    | cons c t => rfl
  unfold processLine
  rw [hstrip]
  rw [if_neg (by simp [hne]), if_neg (by simp [hdet]), hcur]
  show processContinuation st line = _
  unfold processContinuation
  rw [if_pos hpeso, if_pos (by simp [htp]), if_pos htp]
  unfold applyCur
  rw [hcur]

/-- C6 witness at a concrete state and line. -/
theorem c6_total_price_note_witness :
    processLine
      ⟨Items.nil, some (Tag.top, Item.mk (S "1") (S "T") 1 none none true Items.nil), 1⟩
      (S "Total Price – ₱9,000") =
    some ⟨Items.nil, some (Tag.top, setTotalPrice (S "Total Price – ₱9,000")
      (Item.mk (S "1") (S "T") 1 none none true Items.nil)), 1⟩ :=
  c6_total_price_note
    ⟨Items.nil, some (Tag.top, Item.mk (S "1") (S "T") 1 none none true Items.nil), 1⟩
    (S "Total Price – ₱9,000") Tag.top
    (Item.mk (S "1") (S "T") 1 none none true Items.nil)
    (by decide) (by decide) rfl (by decide) (by decide)

theorem itemsNodes_cons (it : Item) (l : Items) :
    itemsNodes (Items.cons it l) = itemNodes it + itemsNodes l := rfl

theorem itemsNodes_snoc : ∀ (l : Items) (it : Item),
    itemsNodes (l.snoc it) = itemsNodes l + itemNodes it
  | .nil, it => by
    simp [Items.snoc, itemsNodes]
  | .cons h t, it => by
    rw [show (Items.cons h t).snoc it = Items.cons h (t.snoc it) from rfl,
      itemsNodes_cons, itemsNodes_cons, itemsNodes_snoc t it]
    omega

theorem itemNodes_appendChild (p c : Item) :
    itemNodes (p.appendChild c) = itemNodes p + itemNodes c := by
  cases p with
  | mk n d lv pr tp hc ch =>
    show itemNodes (.mk n d lv pr tp hc (ch.snoc c)) = _
    rw [show itemNodes (Item.mk n d lv pr tp hc (ch.snoc c)) = 1 + itemsNodes (ch.snoc c)
        from rfl,
      show itemNodes (Item.mk n d lv pr tp hc ch) = 1 + itemsNodes ch from rfl,
      itemsNodes_snoc]
    omega

theorem itemsNodes_modifyLast_append (g : Item) : ∀ ch, ch.isNil = false →
    itemsNodes (Items.modifyLast (fun w => w.appendChild g) ch) =
      itemsNodes ch + itemNodes g
  | .nil, h => by simp [Items.isNil] at h
  | .cons a .nil, _ => by
    show itemsNodes (Items.cons (a.appendChild g) Items.nil) = _
    rw [itemsNodes_cons, itemsNodes_cons, itemNodes_appendChild]
    omega
  | .cons a (.cons b t), _ => by
    show itemsNodes (Items.cons a (Items.modifyLast _ (Items.cons b t))) = _
    rw [itemsNodes_cons, itemsNodes_cons,
      itemsNodes_modifyLast_append g (.cons b t) rfl]
    omega

theorem itemsNodes_flush_top (c : Item) (l : Items) :
    itemsNodes (flush l (some (.top, c))) = itemsNodes l + itemNodes c := by
  unfold flush
  exact itemsNodes_snoc l c

theorem itemsNodes_flush_child (c : Item) (l : Items) (h : l.isNil = false) :
    itemsNodes (flush l (some (.child, c))) = itemsNodes l + itemNodes c := by
  unfold flush
  exact itemsNodes_modifyLast_append c l h

theorem itemsNodes_flush_grand (g : Item) : ∀ l, l.isNil = false →
    l.lastChildren.isNil = false →
    itemsNodes (flush l (some (.grand, g))) = itemsNodes l + itemNodes g
  | .nil, h, _ => by simp [Items.isNil] at h
  | .cons a .nil, _, h2 => by
    cases a with
    | mk n d lv pr tp hc ch =>
      have hch : ch.isNil = false := h2
      show itemsNodes (Items.cons
        (Item.mk n d lv pr tp hc (ch.modifyLast (fun w => w.appendChild g)))
        Items.nil) = _
      rw [itemsNodes_cons, itemsNodes_cons,
        show itemNodes (Item.mk n d lv pr tp hc (ch.modifyLast (fun w => w.appendChild g)))
          = 1 + itemsNodes (ch.modifyLast (fun w => w.appendChild g)) from rfl,
        show itemNodes (Item.mk n d lv pr tp hc ch) = 1 + itemsNodes ch from rfl,
        itemsNodes_modifyLast_append g ch hch]
      omega
  | .cons a (.cons b t), _, h2 => by
    have hrec := itemsNodes_flush_grand g (.cons b t) rfl h2
    unfold flush at hrec ⊢
    show itemsNodes (Items.cons a (Items.modifyLast _ (Items.cons b t))) = _
    rw [itemsNodes_cons, itemsNodes_cons, hrec]
    omega

/-- A `list.append` result is never the empty list. -/
theorem snoc_isNil (l : Items) (it : Item) : (l.snoc it).isNil = false := by
  cases l <;> rfl

/-- Mutating `lst[-1]` in place keeps the list length, hence its emptiness. -/
theorem modifyLast_isNil (f : Item → Item) (l : Items) :
    (Items.modifyLast f l).isNil = l.isNil := by
  cases l with
  | nil => rfl
  | cons h t => cases t <;> rfl

/-- Mutating `current_item` does not change `prev_level`. -/
theorem applyCur_prev (st : PState) (f : Item → Item) : (applyCur st f).prev = st.prev := by
  cases st with
  | mk items cur prev =>
    cases cur with
    | none => rfl
    | some p =>
      obtain ⟨tg, it⟩ := p
      rfl

/-- Mutating `current_item` does not change whether the flushed tree is
empty: the placement tag, and so the target position, is unchanged. -/
theorem applyCur_flushNil (st : PState) (f : Item → Item) :
    (flushState (applyCur st f)).isNil = (flushState st).isNil := by
  cases st with
  | mk items cur prev =>
    cases cur with
    | none => rfl
    | some p =>
      obtain ⟨tg, it⟩ := p
      show (flush items (some (tg, f it))).isNil = (flush items (some (tg, it))).isNil
      cases tg
      · exact (snoc_isNil items (f it)).trans (snoc_isNil items it).symm
      · exact (modifyLast_isNil _ items).trans (modifyLast_isNil _ items).symm
      · exact (modifyLast_isNil _ items).trans (modifyLast_isNil _ items).symm
      · rfl

/-- The hierarchy block (source lines 228–244) on a state where a seen item
line (`prev_level ≥ 1`) implies a nonempty tree: it never raises, the fresh
item becomes `current_item` carrying its placement tag over the flushed
previous tree, and that placement, once flushed, is exactly one append at
the branch's position — a new top-level item for depth 1 and every
degenerate combination, the last top item's last child for depth 2 after
depth ≥ 1, that child's last child for depth 3 after depth ≥ 2 with the
guard — or no append at all in the depth-3 drop case. -/
theorem placeItem_spec (st : PState) (it : Item) (lv : Nat)
    (hreach : 1 ≤ st.prev → (flushState st).isNil = false)
    (hch : it.children = Items.nil) :
    ∃ tg : Tag,
      placeItem st it lv = some ⟨flushState st, some (tg, it), lv⟩ ∧
      flush (flushState st) (some (tg, it)) =
        (if lv = 2 ∧ 1 ≤ st.prev then Items.appendLastChild (flushState st) it
         else if lv = 3 ∧ 2 ≤ st.prev then
           (if (flushState st).lastChildren.isNil = true then flushState st
            else Items.appendLastGrand (flushState st) it)
         else Items.snoc (flushState st) it) ∧
      itemsNodes (flush (flushState st) (some (tg, it))) =
        itemsNodes (flushState st) +
        (if lv = 3 ∧ 2 ≤ st.prev ∧ (flushState st).lastChildren.isNil = true
         then 0 else 1) := by
  have hone : itemNodes it = 1 := by
    cases it with
    | mk n d l p tp hc ch =>
      have hch2 : ch = Items.nil := hch
      subst hch2
      rfl
  by_cases h1 : lv = 1
  · subst h1
    refine ⟨.top, ?_, ?_, ?_⟩
    · unfold placeItem
      rw [if_pos rfl]
    · rw [if_neg (fun hx => absurd hx.1 (by decide)),
        if_neg (fun hx => absurd hx.1 (by decide))]
      rfl
    · rw [itemsNodes_flush_top, hone, if_neg (fun hx => absurd hx.1 (by decide))]
  · by_cases h2 : lv = 2 ∧ 1 ≤ st.prev
    · obtain ⟨h2a, h2b⟩ := h2
      subst h2a
      have hnil : (flushState st).isNil = false := hreach h2b
      refine ⟨.child, ?_, ?_, ?_⟩
      · unfold placeItem
        rw [if_neg h1, if_pos (by simp [h2b]), if_neg (by simp [hnil])]
      · rw [if_pos ⟨rfl, h2b⟩]
        rfl
      · rw [itemsNodes_flush_child _ _ hnil, hone,
          if_neg (fun hx => absurd hx.1 (by decide))]
    · by_cases h3 : lv = 3 ∧ 2 ≤ st.prev
      · obtain ⟨h3a, h3b⟩ := h3
        subst h3a
        have hnil : (flushState st).isNil = false :=
          hreach (Nat.le_trans (by decide) h3b)
        cases hg : (flushState st).lastChildren.isNil with
        | false =>
          refine ⟨.grand, ?_, ?_, ?_⟩
          · unfold placeItem
            rw [if_neg h1, if_neg (by simp), if_pos (by simp [h3b]),
              if_pos (by simp [hnil, hg])]
          · rw [if_neg h2, if_pos ⟨rfl, h3b⟩, if_neg (by simp [hg])]
            rfl
          · rw [itemsNodes_flush_grand _ _ hnil hg, hone, if_neg (by simp [hg])]
        | true =>
          refine ⟨.drop, ?_, ?_, ?_⟩
          · unfold placeItem
            rw [if_neg h1, if_neg (by simp), if_pos (by simp [h3b]),
              if_neg (by simp [hg])]
          · rw [if_neg h2, if_pos ⟨rfl, h3b⟩, if_pos rfl]
            rfl
          · show itemsNodes (flushState st) = _
            rw [if_pos ⟨rfl, h3b, rfl⟩]
            omega
      · refine ⟨.top, ?_, ?_, ?_⟩
        · unfold placeItem
          rw [if_neg h1,
            if_neg (by simp only [Bool.and_eq_true, decide_eq_true_eq]; exact h2),
            if_neg (by simp only [Bool.and_eq_true, decide_eq_true_eq]; exact h3)]
        · rw [if_neg h2, if_neg h3]
          rfl
        · rw [itemsNodes_flush_top, hone, if_neg (fun hx => h3 ⟨hx.1, hx.2.1⟩)]

/-- One loop iteration preserves: a seen item line (`prev_level ≥ 1`)
implies a nonempty flushed tree — so the level-2 branch's `items[-1]`
never raises IndexError. -/
theorem processLine_reach (st : PState) (l : List Nat) (st2 : PState)
    (h : processLine st l = some st2)
    (hr : 1 ≤ st.prev → (flushState st).isNil = false) :
    1 ≤ st2.prev → (flushState st2).isNil = false := by
  unfold processLine at h
  split at h
  · injection h with h
    subst h
    exact hr
  · split at h
    · unfold processItemLine at h
      split at h
      · exact Option.noConfusion h
      · unfold placeItem at h
        split at h
        · injection h with h
          subst h
          intro _
          show (Items.snoc (flushState st) _).isNil = false
          exact snoc_isNil _ _
        · split at h
          · split at h
            · exact Option.noConfusion h
            · rename_i hnil
              injection h with h
              subst h
              intro _
              show (Items.modifyLast _ (flushState st)).isNil = false
              rw [modifyLast_isNil]
              cases hx : (flushState st).isNil with
              | false => rfl
              | true => exact absurd hx hnil
          · split at h
            · split at h
              · rename_i hguard
                injection h with h
                subst h
                intro _
                show (Items.modifyLast _ (flushState st)).isNil = false
                rw [modifyLast_isNil]
                simp only [Bool.and_eq_true, Bool.not_eq_true'] at hguard
                exact hguard.1
              · rename_i hcond hguard
                injection h with h
                subst h
                intro _
                show (flushState st).isNil = false
                simp only [Bool.and_eq_true, decide_eq_true_eq] at hcond
                exact hr (Nat.le_trans (by decide) hcond.2)
            · injection h with h
              subst h
              intro _
              show (Items.snoc (flushState st) _).isNil = false
              exact snoc_isNil _ _
    · split at h
      · injection h with h
        subst h
        exact hr
      · unfold processContinuation at h
        split at h
        · split at h
          · split at h
            · injection h with h
              subst h
              intro hp
              rw [applyCur_prev] at hp
              rw [applyCur_flushNil]
              exact hr hp
            · split at h
              · exact Option.noConfusion h
              · injection h with h
                subst h
                intro hp
                rw [applyCur_prev] at hp
                rw [applyCur_flushNil]
                exact hr hp
          · injection h with h
            subst h
            intro hp
            rw [applyCur_prev] at hp
            rw [applyCur_flushNil]
            exact hr hp
        · injection h with h
          subst h
          intro hp
          rw [applyCur_prev] at hp
          rw [applyCur_flushNil]
          exact hr hp

/-- Every state the loop reaches from the initial state satisfies the
nonempty-tree condition of `placeItem_spec`. -/
theorem processLines_reach : ∀ (ls : List (List Nat)) (st st2 : PState),
    processLines st ls = some st2 →
    (1 ≤ st.prev → (flushState st).isNil = false) →
    (1 ≤ st2.prev → (flushState st2).isNil = false)
  | [], st, st2, h, hr => by
    injection h with h
    subst h
    exact hr
  | l :: rest, st, st2, h, hr => by
    unfold processLines at h
    split at h
    · exact Option.noConfusion h
    · rename_i st1 h1
      exact processLines_reach rest st1 st2 h (processLine_reach st l st1 h1 hr)

/-- C1 (amended): on every state the loop reaches, a line classified as an
item start whose inline-pricing step returned (`pd`) is handled by the
hierarchy block without raising: the fresh item becomes `current_item`
(so continuation lines still mutate it) over the flushed previous tree,
and flushing it back performs exactly one append at the source's chosen
position — a new top-level item for depth 1 and for every degenerate
depth combination, the last top-level item's last child for depth 2 after
depth ≥ 1, that child's last child for depth 3 after depth ≥ 2 when the
last top-level item has children — EXCEPT the depth-3 case with that
guard failing: the item is appended nowhere, the node count does not
grow, and the item-start line is silently dropped from the tree. -/
theorem c1_placement_accounting (ls : List (List Nat)) (st : PState)
    (line : List Nat) (pd : Option IPricing × List Nat)
    (hreach : processLines ⟨Items.nil, none, 0⟩ ls = some st)
    (hstrip : strip line = line)
    (hdet : detect_item_line line = true)
    (hpd : itemPricingDesc (extract_number_and_text line).2 = some pd) :
    ∃ tg : Tag,
      processLine st line =
        some ⟨flushState st, some (tg, newItem line pd),
          determine_hierarchy_level (extract_number_and_text line).1⟩ ∧
      flush (flushState st) (some (tg, newItem line pd)) =
        (if determine_hierarchy_level (extract_number_and_text line).1 = 2 ∧ 1 ≤ st.prev
         then Items.appendLastChild (flushState st) (newItem line pd)
         else if determine_hierarchy_level (extract_number_and_text line).1 = 3 ∧ 2 ≤ st.prev
         then (if (flushState st).lastChildren.isNil = true
           then flushState st
           else Items.appendLastGrand (flushState st) (newItem line pd))
         else Items.snoc (flushState st) (newItem line pd)) ∧
      itemsNodes (flush (flushState st) (some (tg, newItem line pd))) =
        itemsNodes (flushState st) +
        (if determine_hierarchy_level (extract_number_and_text line).1 = 3 ∧ 2 ≤ st.prev ∧
            (flushState st).lastChildren.isNil = true
         then 0 else 1) := by
  have hr : 1 ≤ st.prev → (flushState st).isNil = false :=
    processLines_reach ls ⟨Items.nil, none, 0⟩ st hreach
      (fun hp => absurd hp (by decide))
  have hne : line.isEmpty = false := by
    cases hl : line with
    | nil =>
      rw [hl] at hdet
      exact absurd hdet (by decide)
    | cons c t => rfl
  obtain ⟨tg, hp, hf, hn⟩ := placeItem_spec st (newItem line pd)
    (determine_hierarchy_level (extract_number_and_text line).1) hr rfl
  refine ⟨tg, ?_, hf, hn⟩
  unfold processLine
  rw [hstrip, if_neg (by simp [hne]), if_pos (by simp [hdet])]
  unfold processItemLine
  rw [hpd]
  exact hp

/-- C1 witness: from the initial state, the line `"1. A"` is processed
without raising and is placed as a new top-level item. -/
theorem c1_placement_accounting_witness :
    ∃ tg : Tag,
      processLine ⟨Items.nil, none, 0⟩ (S "1. A") =
        some ⟨flushState ⟨Items.nil, none, 0⟩,
          some (tg, newItem (S "1. A") (none, S "A")),
          determine_hierarchy_level (extract_number_and_text (S "1. A")).1⟩ ∧
      flush (flushState ⟨Items.nil, none, 0⟩)
          (some (tg, newItem (S "1. A") (none, S "A"))) =
        (if determine_hierarchy_level (extract_number_and_text (S "1. A")).1 = 2 ∧
            1 ≤ (PState.mk Items.nil none 0).prev
         then Items.appendLastChild (flushState ⟨Items.nil, none, 0⟩)
            (newItem (S "1. A") (none, S "A"))
         else if determine_hierarchy_level (extract_number_and_text (S "1. A")).1 = 3 ∧
            2 ≤ (PState.mk Items.nil none 0).prev
         then (if (flushState ⟨Items.nil, none, 0⟩).lastChildren.isNil = true
           then flushState ⟨Items.nil, none, 0⟩
           else Items.appendLastGrand (flushState ⟨Items.nil, none, 0⟩)
              (newItem (S "1. A") (none, S "A")))
         else Items.snoc (flushState ⟨Items.nil, none, 0⟩)
            (newItem (S "1. A") (none, S "A"))) ∧
      itemsNodes (flush (flushState ⟨Items.nil, none, 0⟩)
          (some (tg, newItem (S "1. A") (none, S "A")))) =
        itemsNodes (flushState ⟨Items.nil, none, 0⟩) +
        (if determine_hierarchy_level (extract_number_and_text (S "1. A")).1 = 3 ∧
            2 ≤ (PState.mk Items.nil none 0).prev ∧
            (flushState ⟨Items.nil, none, 0⟩).lastChildren.isNil = true
         then 0 else 1) :=
  c1_placement_accounting [] ⟨Items.nil, none, 0⟩ (S "1. A") (none, S "A")
    rfl rfl rfl rfl


end PQI
